import Mathlib

/-!
Verification of the CraftChain core against its natural-language specification.

The development shallowly embeds the three algorithmic cores of the repository:

* `server/utils/projectHelpers.js` — the pure item-status engine
  (`computeItemStatuses`), progress aggregation (`computeProgress`),
  bottleneck ranking (`detectBottlenecks`) and the unmet-dependency check
  (`getUnmetDependencies`);
* `server/routes/projects.js`, `POST /:id/contribute` — the contribution
  transactor, modelled once as a sequential single-call function
  (`contribute`) and once as an interleaving machine for the concurrent
  fallback `findOneAndUpdate` strategy (`FStep`) and the transactional
  strategy (`TStep`);
* `server/utils/minecraft.js` — the recipe-graph resolver
  (`buildDependencyList`, `buildRecipeTree`, `normaliseIngredients`,
  `pickBestRecipe`, `pickCraftingRecipe`).

JavaScript numbers are modelled as `ℤ` where the code only ever produces
integers (item quantities, `Math.max(1, Math.ceil(...))` results) and as `ℚ`
where fractional values could flow in (recipe result counts, queue-node
quantities, the progress percentage).  JavaScript string normalisation
(`toLowerCase().trim()`) is modelled by executable `jsToLower`/`jsTrim`
so that concrete instances evaluate inside the kernel.
-/

namespace CraftChain

/-- Model of JavaScript `String.prototype.toLowerCase` (ASCII item names). -/
def jsToLower (s : String) : String := ⟨s.data.map Char.toLower⟩

/-- Model of JavaScript `String.prototype.trim`: strip whitespace from both ends. -/
def jsTrim (s : String) : String :=
  ⟨((s.data.dropWhile Char.isWhitespace).reverse.dropWhile Char.isWhitespace).reverse⟩

/-- `name.toLowerCase().trim()` — the normalisation used throughout
`projectHelpers.js` and `minecraft.js` for case-insensitive name keys. -/
def normKey (s : String) : String := jsTrim (jsToLower s)

/-- `itemName.trim().toLowerCase()` — the variant order used by the
contribute route (`projects.js` step 4). -/
def routeNorm (s : String) : String := jsToLower (jsTrim s)

/-- A project item as stored in the document: quantities are JS numbers that
the schema keeps integral (`quantityRequired ≥ 1`, `quantityCollected ≥ 0`),
modelled as `ℤ`; `dependencies` is a list of free-form item-name strings. -/
structure Item where
  name : String
  quantityRequired : ℤ
  quantityCollected : ℤ
  dependencies : List String
deriving DecidableEq, Repr

/-- The derived status enum of `computeItemStatuses`. -/
inductive Status where
  | completed
  | blocked
  | pending
deriving DecidableEq, Repr

/-- Step 1 of `computeItemStatuses` (`projectHelpers.js` lines 46–52): the
set of lowercased-trimmed names of items with `quantityCollected ≥
quantityRequired`, kept as a list (only membership is used). -/
def completedNames (items : List Item) : List String :=
  (items.filter (fun i => i.quantityRequired ≤ i.quantityCollected)).map
    (fun i => normKey i.name)

/-- Step 2 of `computeItemStatuses` (`projectHelpers.js` lines 55–72):
the per-item status assignment. -/
def itemStatus (completedSet : List String) (i : Item) : Status :=
  if i.quantityRequired ≤ i.quantityCollected then .completed
  else if 0 < i.dependencies.length ∧
      i.dependencies.any (fun dep => !(completedSet.contains (normKey dep))) then .blocked
  else .pending

/-- An item together with its derived status, as returned by
`computeItemStatuses`. -/
structure StatusItem extends Item where
  status : Status
deriving DecidableEq, Repr

/-- `computeItemStatuses` (`projectHelpers.js` lines 43–82), restricted to the
item list (the surrounding project clone is irrelevant to the statuses). -/
def computeItemStatuses (items : List Item) : List StatusItem :=
  let completedSet := completedNames items
  items.map (fun i => { toItem := i, status := itemStatus completedSet i })

/-- Result record of `computeProgress`. -/
structure Progress where
  totalRequired : ℤ
  totalCollected : ℤ
  percent : ℚ
deriving DecidableEq, Repr

/-- `computeProgress` (`projectHelpers.js` lines 99–119).  `Math.round(x)` is
`⌊x + 1/2⌋` on the values produced here. -/
def computeProgress (items : List Item) : Progress :=
  let totalRequired : ℤ := (items.map (fun i => i.quantityRequired)).sum
  let totalCollected : ℤ :=
    (items.map (fun i => min i.quantityCollected i.quantityRequired)).sum
  let percent : ℚ :=
    if 0 < totalRequired then
      ((⌊(totalCollected : ℚ) / (totalRequired : ℚ) * 1000 + 1/2⌋ : ℤ) : ℚ) / 10
    else 0
  ⟨totalRequired, totalCollected, percent⟩

/-- A bottleneck entry `{ name, blockingCount, remaining }`. -/
structure Bneck where
  name : String
  blockingCount : ℕ
  remaining : ℤ
deriving DecidableEq, Repr

/-- The `dependedOnBy` count of `detectBottlenecks` (`projectHelpers.js`
lines 143–150): for a lowercased-trimmed key, the total number of occurrences
of that key across every item's dependency list. -/
def dependedOnCount (items : List Item) (key : String) : ℕ :=
  ((items.map (fun i => i.dependencies)).flatten).countP (fun dep => normKey dep == key)

/-- The candidate pass of `detectBottlenecks` (`projectHelpers.js`
lines 153–171): incomplete items with their blocking count and remainder,
in item order. -/
def bottleneckCandidates (items : List Item) : List Bneck :=
  items.filterMap (fun i =>
    if i.quantityRequired ≤ i.quantityCollected then none
    else some ⟨i.name, dependedOnCount items (normKey i.name),
               i.quantityRequired - i.quantityCollected⟩)

/-- The sort comparator of `detectBottlenecks` (`projectHelpers.js`
lines 174–179) as a may-precede relation: `a` may come before `b` when the
JS comparator returns a non-positive value. -/
def bneckLE (a b : Bneck) : Bool :=
  if a.blockingCount ≠ b.blockingCount then decide (b.blockingCount < a.blockingCount)
  else decide (b.remaining ≤ a.remaining)

/-- `detectBottlenecks` (`projectHelpers.js` lines 139–182): stable sort of
the candidates by the comparator, then the first `topN`. -/
def detectBottlenecks (items : List Item) (topN : ℕ := 3) : List Bneck :=
  ((bottleneckCandidates items).mergeSort bneckLE).take topN

/-- `getUnmetDependencies` (`projectHelpers.js` lines 217–239). -/
def getUnmetDependencies (items : List Item) (itemName : String) : List String :=
  let normalised := normKey itemName
  match items.find? (fun i => normKey i.name == normalised) with
  | none => []
  | some target =>
    if target.dependencies.length = 0 then []
    else target.dependencies.filter
      (fun dep => !((completedNames items).contains (normKey dep)))

/-- The claim's reading of `blockingCount`: how many items *other than the
one named `nm`* list `nm` (case-insensitively) as a dependency.  Stated from
the spec sentence to compare against the source's occurrence counting. -/
def othersListingCount (items : List Item) (nm : String) : ℕ :=
  items.countP (fun it =>
    !(normKey it.name == normKey nm) &&
      it.dependencies.any (fun dep => normKey dep == normKey nm))

/-- A contribution record (`projects.js` step 8); contributor identity and
timestamp are out-of-core metadata and not modelled. -/
structure Contribution where
  itemName : String
  quantity : ℤ
deriving DecidableEq, Repr

/-- The two event types the contribute route can append. -/
inductive EventType where
  | contribution
  | itemCompleted
deriving DecidableEq, Repr

/-- An activity event (`projects.js` step 9), reduced to the fields the
contribute route writes about the target item. -/
structure Event where
  type : EventType
  itemName : String
  quantity : ℤ
deriving DecidableEq, Repr

/-- The slice of a project document the contribute route touches. -/
structure ProjState where
  items : List Item
  contributions : List Contribution
  events : List Event
deriving DecidableEq, Repr

/-- The structured outcomes of one contribute call
(`projects.js` steps 1–12 / spec section 7). -/
inductive ContribOutcome where
  | validationError
  | notFoundItem
  | unmetDependencies (deps : List String)
  | alreadyComplete
  | ok (acceptedQuantity remainderRequested remaining : ℤ)
deriving DecidableEq, Repr

/-- The MongoDB positional `$inc` used by both persistence paths: add
`amount` to `quantityCollected` of the first item whose normalised name
matches `key`. -/
def incFirst (items : List Item) (key : String) (amount : ℤ) : List Item :=
  match items with
  | [] => []
  | i :: rest =>
    if normKey i.name == key then
      { i with quantityCollected := i.quantityCollected + amount } :: rest
    else i :: incFirst rest key amount

/-- One sequential `POST /:id/contribute` call (`projects.js` lines 973–1269)
applied to the project state with no interleaved writers.  In this setting the
transaction's fresh re-read sees the same state as the initial read, so the
transactional path and the `findOneAndUpdate` fallback compute identical
results and this single function models both. -/
def contribute (s : ProjState) (itemName : String) (parsedQty : ℤ) :
    ContribOutcome × ProjState :=
  if parsedQty < 1 then (.validationError, s)
  else
    let normalisedName := routeNorm itemName
    match s.items.find? (fun i => normKey i.name == normalisedName) with
    | none => (.notFoundItem, s)
    | some targetItem =>
      let unmet := getUnmetDependencies s.items targetItem.name
      if 0 < unmet.length then (.unmetDependencies unmet, s)
      else
        let remaining := targetItem.quantityRequired - targetItem.quantityCollected
        if remaining ≤ 0 then (.alreadyComplete, s)
        else
          let acceptedQuantity := min parsedQty remaining
          let wasCompletedBefore :=
            targetItem.quantityRequired ≤ targetItem.quantityCollected
          let willBeCompleted :=
            targetItem.quantityRequired ≤ targetItem.quantityCollected + acceptedQuantity
          let eventsToAdd :=
            [Event.mk .contribution targetItem.name acceptedQuantity] ++
              (if ¬wasCompletedBefore ∧ willBeCompleted then
                [Event.mk .itemCompleted targetItem.name acceptedQuantity] else [])
          let items' := incFirst s.items normalisedName acceptedQuantity
          let s' : ProjState :=
            ⟨items', s.contributions ++ [⟨targetItem.name, acceptedQuantity⟩],
             s.events ++ eventsToAdd⟩
          let finalRemaining :=
            match items'.find? (fun i => normKey i.name == normalisedName) with
            | some fi => fi.quantityRequired - fi.quantityCollected
            | none => 0
          (.ok acceptedQuantity (parsedQty - acceptedQuantity) finalRemaining, s')

/-- The per-call phases of the fallback `findOneAndUpdate` strategy
(`projects.js` lines 999–1039 then 1199–1248) for one fixed item with
`required` held constant.  A call first reads the document (computing
`remaining` and `acceptedQuantity` from that snapshot, steps 3–6), then later
issues the conditional write whose precondition is only
`quantityCollected < quantityRequired` at write time. -/
inductive FCallState where
  | pendingRead (q : ℤ)
  | armed (accepted : ℤ)
  | done (applied : Bool)
deriving DecidableEq, Repr

/-- Shared state for the fallback machine: the item's collected quantity and
the phase of each in-flight call. -/
structure FSys where
  collected : ℤ
  calls : List FCallState
deriving DecidableEq, Repr

/-- Interleaving semantics of concurrent fallback-path contribute calls on one
item.  `read` is the initial document read (steps 3–6): it computes
`acceptedQuantity = min q remaining` from the snapshot, or finishes with
`Conflict.AlreadyComplete` when `remaining ≤ 0`.  `write` is the conditional
`findOneAndUpdate` (lines 1203–1217): it applies the increment whenever
`collected < required` holds at write time; `writeFail` is the failed
precondition followed by the re-read (lines 1219–1234). -/
inductive FStep (required : ℤ) : FSys → FSys → Prop
  | read (i : ℕ) (q : ℤ) (s : FSys)
      (h : s.calls[i]? = some (.pendingRead q))
      (hrem : 0 < required - s.collected) :
      FStep required s ⟨s.collected, s.calls.set i (.armed (min q (required - s.collected)))⟩
  | readComplete (i : ℕ) (q : ℤ) (s : FSys)
      (h : s.calls[i]? = some (.pendingRead q))
      (hrem : required - s.collected ≤ 0) :
      FStep required s ⟨s.collected, s.calls.set i (.done false)⟩
  | write (i : ℕ) (a : ℤ) (s : FSys)
      (h : s.calls[i]? = some (.armed a))
      (hlt : s.collected < required) :
      FStep required s ⟨s.collected + a, s.calls.set i (.done true)⟩
  | writeFail (i : ℕ) (a : ℤ) (s : FSys)
      (h : s.calls[i]? = some (.armed a))
      (hge : required ≤ s.collected) :
      FStep required s ⟨s.collected, s.calls.set i (.done false)⟩

/-- Reachability under interleaved fallback-path calls. -/
def FReach (required : ℤ) : FSys → FSys → Prop :=
  Relation.ReflTransGen (FStep required)

/-- Interleaving semantics of the transactional strategy (`projects.js`
lines 1082–1180): the fresh re-read, the recomputation of
`acceptedQuantity`, the completeness check and the increment all happen
inside one isolated transaction, i.e. as a single atomic step. -/
inductive TStep (required : ℤ) : FSys → FSys → Prop
  | commit (i : ℕ) (q : ℤ) (s : FSys)
      (h : s.calls[i]? = some (.pendingRead q))
      (hrem : 0 < required - s.collected) :
      TStep required s
        ⟨s.collected + min q (required - s.collected), s.calls.set i (.done true)⟩
  | abortComplete (i : ℕ) (q : ℤ) (s : FSys)
      (h : s.calls[i]? = some (.pendingRead q))
      (hrem : required - s.collected ≤ 0) :
      TStep required s ⟨s.collected, s.calls.set i (.done false)⟩

/-- Reachability under interleaved transactional calls. -/
def TReach (required : ℤ) : FSys → FSys → Prop :=
  Relation.ReflTransGen (TStep required)

/-- An entry of `mcData.itemsByName` / `mcData.items`. -/
structure KBItem where
  id : ℤ
  name : String
deriving DecidableEq, Repr

/-- One slot of a recipe from `minecraft-data`: `null`, a plain numeric id,
or an object with an optional `id` property (`minecraft.js` lines 423–428). -/
inductive Cell where
  | empty
  | num (id : ℤ)
  | obj (id : Option ℤ)
deriving DecidableEq, Repr

/-- `recipe.result`: the declared output, with an optional `count`.  The
count is a JS number (`ℚ`): the code defends against fractional, zero and
missing values with `|| 1`. -/
structure RecipeResult where
  id : Option ℤ := none
  count : Option ℚ := none
deriving DecidableEq, Repr

/-- A recipe variant: a shaped grid (`inShape`), a shapeless ingredient
list, or neither. -/
structure Recipe where
  inShape : Option (List (List Cell)) := none
  ingredients : Option (List Cell) := none
  result : Option RecipeResult := none
deriving DecidableEq, Repr

/-- The read-only `minecraft-data` knowledge base: name-keyed item lookup,
id-keyed recipe lists (an absent entry is the empty list) and id-keyed item
lookup for ingredient names. -/
structure MC where
  itemsByName : String → Option KBItem
  recipes : ℤ → List Recipe
  itemsById : ℤ → Option KBItem

/-- The hardcoded smithing-table fallback table (`minecraft.js` lines 50–60):
output name → ingredient `(name, quantity)` pairs. -/
def SMITHING_RECIPES (k : String) : Option (List (String × ℚ)) :=
  if k == "netherite_sword" then
    some [("diamond_sword", 1), ("netherite_ingot", 1)]
  else if k == "netherite_pickaxe" then
    some [("diamond_pickaxe", 1), ("netherite_ingot", 1)]
  else if k == "netherite_axe" then
    some [("diamond_axe", 1), ("netherite_ingot", 1)]
  else if k == "netherite_shovel" then
    some [("diamond_shovel", 1), ("netherite_ingot", 1)]
  else if k == "netherite_hoe" then
    some [("diamond_hoe", 1), ("netherite_ingot", 1)]
  else if k == "netherite_helmet" then
    some [("diamond_helmet", 1), ("netherite_ingot", 1)]
  else if k == "netherite_chestplate" then
    some [("diamond_chestplate", 1), ("netherite_ingot", 1)]
  else if k == "netherite_leggings" then
    some [("diamond_leggings", 1), ("netherite_ingot", 1)]
  else if k == "netherite_boots" then
    some [("diamond_boots", 1), ("netherite_ingot", 1)]
  else none

/-- `extractIngredientId` (`minecraft.js` lines 423–428). -/
def extractIngredientId : Cell → Option ℤ
  | .empty => none
  | .num i => some i
  | .obj o => o

/-- A normalised ingredient `{ id, name, quantity }`.  `quantity` is a JS
number; the code only ever stores `Math.max(1, Math.ceil(...))` results or
smithing-table values in it. -/
structure Ingredient where
  id : Option ℤ
  name : Option String
  quantity : ℚ
deriving DecidableEq, Repr

/-- Insertion-ordered counting map update: the model of
`counts.set(id, (counts.get(id) || 0) + 1)` on a JS `Map`. -/
def bump (m : List (ℤ × ℕ)) (id : ℤ) : List (ℤ × ℕ) :=
  match m with
  | [] => [(id, 1)]
  | (k, v) :: t => if k = id then (k, v + 1) :: t else (k, v) :: bump t id

/-- Count the ingredient ids of a run of cells, skipping empty slots and
negative ids (`minecraft.js` lines 374–388). -/
def cellCounts (cells : List Cell) (m : List (ℤ × ℕ)) : List (ℤ × ℕ) :=
  cells.foldl (fun acc cell =>
    match extractIngredientId cell with
    | none => acc
    | some id => if id < 0 then acc else bump acc id) m

/-- `normaliseIngredients` (`minecraft.js` lines 367–411): count ids from the
shaped grid (preferred) or the shapeless list, then emit one record per id
with the name looked up by id and `quantity = Math.max(1, Math.ceil(count))`. -/
def normaliseIngredients (mc : MC) (recipe : Option Recipe) : List Ingredient :=
  match recipe with
  | none => []
  | some r =>
    let counts : List (ℤ × ℕ) :=
      match r.inShape with
      | some rows => rows.foldl (fun acc row => cellCounts row acc) []
      | none =>
        match r.ingredients with
        | some ings => cellCounts ings []
        | none => []
    counts.map (fun idq =>
      { id := some idq.1,
        name := (mc.itemsById idq.1).map (fun it => it.name),
        quantity := ((max 1 ⌈(idq.2 : ℚ)⌉ : ℤ) : ℚ) })

/-- `pickBestRecipe` (`minecraft.js` lines 349–352): the first shaped
variant, otherwise the first variant. -/
def pickBestRecipe (recipes : List Recipe) : Option Recipe :=
  match recipes.find? (fun r => r.inShape.isSome) with
  | some shaped => some shaped
  | none => recipes.head?

/-- JavaScript `x || d` on a number. -/
def jsOrQ (q d : ℚ) : ℚ := if q = 0 then d else q

/-- JavaScript truthiness of a possibly-missing string. -/
def strTruthy : Option String → Bool
  | none => false
  | some s => !(s == "")

/-- Render an optional id the way a JS template literal would. -/
def idString : Option ℤ → String
  | some i => toString i
  | none => "null"

/-- A BFS queue entry of `buildDependencyList` (`minecraft.js` line 216). -/
structure QNode where
  id : Option ℤ
  name : Option String
  quantity : ℚ
  parentName : Option String
  depth : ℕ
deriving DecidableEq, Repr

/-- An aggregated output entry of `buildDependencyList`. -/
structure DepEntry where
  name : Option String
  id : Option ℤ
  quantityRequired : ℚ
  raw : Bool
  fromRecipeOf : Option String
deriving DecidableEq, Repr

/-- The result array of `buildDependencyList` together with its `truncated`
expando flag. -/
structure DepList where
  entries : List DepEntry
  truncated : Bool
deriving DecidableEq, Repr

/-- `node.name ? node.name.toLowerCase() : null` (`minecraft.js` line 253). -/
def nodeNameLower (node : QNode) : Option String :=
  match node.name with
  | some s => if s == "" then none else some (jsToLower s)
  | none => none

/-- The aggregation key (`minecraft.js` line 272). -/
def aggKey (node : QNode) : String :=
  match nodeNameLower node with
  | some s => s
  | none => "id_" ++ idString node.id

/-- The raw/expandable check for a queue node (`minecraft.js`
lines 257–269): a node is non-raw when its looked-up item has crafting
recipes (which also yields the child recipe) or a smithing fallback. -/
def nodeRecipeInfo (mc : MC) (node : QNode) : Bool × Option Recipe :=
  match nodeNameLower node with
  | none => (true, none)
  | some nm =>
    match mc.itemsByName nm with
    | none => (true, none)
    | some nodeItem =>
      let nodeRecipes := mc.recipes nodeItem.id
      if nodeRecipes ≠ [] then (false, pickBestRecipe nodeRecipes)
      else if (SMITHING_RECIPES nm).isSome then (false, none)
      else (true, none)

/-- Aggregate one visited node into the insertion-ordered result map
(`minecraft.js` lines 271–286): an existing entry gets its quantity summed
and stays non-raw once any occurrence is non-raw; otherwise a new entry is
appended. -/
def aggAdd (agg : List (String × DepEntry)) (key : String) (qInt : ℤ)
    (isRaw : Bool) (entry : DepEntry) : List (String × DepEntry) :=
  match agg with
  | [] => [(key, entry)]
  | (k, e) :: t =>
    if k == key then
      (k, { e with quantityRequired := e.quantityRequired + (qInt : ℚ),
                   raw := e.raw && isRaw }) :: t
    else (k, e) :: aggAdd t key qInt isRaw entry

/-- The BFS loop of `buildDependencyList` (`minecraft.js` lines 247–302).
Each iteration pops one node, counts it against `maxNodes`, aggregates it and
— when it has a recipe and depth allows — enqueues its children scaled by
`quantityInt`; the budget check before each child push uses the already
incremented visit counter, so when the budget is exhausted no child is pushed
and the result is flagged truncated. -/
def bdlLoop (mc : MC) (depthLimit maxNodes : ℕ) :
    List QNode → List (String × DepEntry) → ℕ → Bool →
    List (String × DepEntry) × Bool
  | [], agg, _, truncated => (agg, truncated)
  | node :: rest, agg, visited, truncated =>
    if h : maxNodes ≤ visited then (agg, true)
    else
      let visited' := visited + 1
      let quantityInt : ℤ := max 1 ⌈jsOrQ node.quantity 1⌉
      let info := nodeRecipeInfo mc node
      let entry : DepEntry :=
        { name := node.name, id := node.id, quantityRequired := (quantityInt : ℚ),
          raw := info.1, fromRecipeOf := node.parentName }
      let agg' := aggAdd agg (aggKey node) quantityInt info.1 entry
      let expanded : List QNode × Bool :=
        if info.1 = false ∧ info.2.isSome ∧ node.depth < depthLimit then
          let childIngredients := normaliseIngredients mc info.2
          if maxNodes ≤ visited' ∧ childIngredients ≠ [] then ([], true)
          else
            (childIngredients.map (fun child =>
              ⟨child.id, child.name, child.quantity * (quantityInt : ℚ),
               nodeNameLower node, node.depth + 1⟩), truncated)
        else ([], truncated)
      bdlLoop mc depthLimit maxNodes (rest ++ expanded.1) agg' visited' expanded.2
termination_by queue _ visited _ => maxNodes - visited
decreasing_by omega

/-- The seed ingredients of `buildDependencyList` (`minecraft.js`
lines 221–234): the chosen recipe's normalised ingredients, otherwise the
smithing fallback mapped to ingredient records. -/
def seedIngredientsOf (mc : MC) (finalRecipes : List Recipe)
    (hasSmithing : Option (List (String × ℚ))) : List Ingredient :=
  if finalRecipes ≠ [] then normaliseIngredients mc (pickBestRecipe finalRecipes)
  else
    match hasSmithing with
    | some l => l.map (fun ingr =>
        { id := (mc.itemsByName ingr.1).map (fun it => it.id),
          name := some ingr.1, quantity := ingr.2 })
    | none => []

/-- `buildDependencyList` (`minecraft.js` lines 180–325) without the
TTL cache layer (a cache hit returns a previously computed value of this same
function, so values are unaffected): `none` models the `null` "unavailable"
outcome, returned when the root item is unknown or has neither a crafting nor
a smithing recipe. -/
def buildDependencyList (mc : MC) (finalItem : String)
    (depthLimit maxNodes : ℕ) : Option DepList :=
  let finalNameLower := normKey finalItem
  match mc.itemsByName finalNameLower with
  | none => none
  | some finalItemObj =>
    let finalRecipes := mc.recipes finalItemObj.id
    let hasSmithing := SMITHING_RECIPES finalNameLower
    if finalRecipes = [] ∧ hasSmithing = none then none
    else
      let seedIngredients := seedIngredientsOf mc finalRecipes hasSmithing
      let seeded : List QNode × Bool :=
        if maxNodes = 0 ∧ seedIngredients ≠ [] then ([], true)
        else
          (seedIngredients.map (fun ingr =>
            ⟨ingr.id, ingr.name, ingr.quantity, some finalNameLower, 0⟩), false)
      let looped := bdlLoop mc depthLimit maxNodes seeded.1 [] 0 seeded.2
      some ⟨looped.1.map (fun p => p.2), looped.2⟩

/-- A node of the recursive dependency tree returned by `buildRecipeTree`. -/
inductive TreeNode where
  | mk (name : String) (quantity : ℚ) (computedRequired : ℚ)
      (raw : Bool) (children : List TreeNode)

/-- Name of a tree node. -/
def TreeNode.name : TreeNode → String
  | .mk n _ _ _ _ => n

/-- Per-parent quantity of a tree node. -/
def TreeNode.quantity : TreeNode → ℚ
  | .mk _ q _ _ _ => q

/-- Scaled requirement of a tree node. -/
def TreeNode.computedRequired : TreeNode → ℚ
  | .mk _ _ cr _ _ => cr

/-- Raw flag of a tree node. -/
def TreeNode.raw : TreeNode → Bool
  | .mk _ _ _ r _ => r

/-- Children of a tree node. -/
def TreeNode.children : TreeNode → List TreeNode
  | .mk _ _ _ _ cs => cs

/-- `r.result?.count || 1` (`minecraft.js` line 465). -/
def resultCount (r : Recipe) : ℚ :=
  match r.result with
  | none => 1
  | some res =>
    match res.count with
    | none => 1
    | some c => if c = 0 then 1 else c

/-- `pickCraftingRecipe` (`minecraft.js` lines 460–476): drop decomposition
variants (declared output count > 1); if nothing is left the item is treated
as raw, otherwise pick the best remaining variant. -/
def pickCraftingRecipe (recipes : List Recipe) : Option Recipe :=
  if recipes.isEmpty then none
  else
    let crafting := recipes.filter (fun r => !(1 < resultCount r : Bool))
    if crafting.isEmpty then none else pickBestRecipe crafting

/-- ``ing.name || `item_${ing.id}` `` (`minecraft.js` lines 519 and 530). -/
def ingName (ingr : Ingredient) : String :=
  match ingr.name with
  | some s => if s == "" then "item_" ++ idString ingr.id else s
  | none => "item_" ++ idString ingr.id

/-- The recursive `expand` of `buildRecipeTree` (`minecraft.js`
lines 478–535).  `visited` is the per-path set of normalised names, copied
into `nextVisited` on descent; a name already on the current path yields a
raw leaf.  At `depthLimit` the immediate children are listed but not
expanded. -/
def expand (mc : MC) (depthLimit : ℕ) (name : String) (perRecipeQty parentScaled : ℚ)
    (depth : ℕ) (visited : List String) : TreeNode :=
  let key := normKey name
  let computedRequired := parentScaled * perRecipeQty
  if key ∈ visited then .mk name perRecipeQty computedRequired true []
  else
    let nextVisited := key :: visited
    match mc.itemsByName key with
    | none => .mk name perRecipeQty computedRequired true []
    | some item =>
      let ingredients : Option (List Ingredient) :=
        match pickCraftingRecipe (mc.recipes item.id) with
        | some best => some (normaliseIngredients mc (some best))
        | none =>
          match SMITHING_RECIPES key with
          | some l => some (l.map (fun ingr =>
              { id := (mc.itemsByName ingr.1).map (fun it => it.id),
                name := some ingr.1, quantity := ingr.2 }))
          | none => none
      match ingredients with
      | none => .mk name perRecipeQty computedRequired true []
      | some ings =>
        if ings.isEmpty then .mk name perRecipeQty computedRequired true []
        else if depthLimit ≤ depth then
          .mk name perRecipeQty computedRequired false
            (ings.map (fun ingr =>
              .mk (ingName ingr) ingr.quantity (computedRequired * ingr.quantity)
                true []))
        else
          .mk name perRecipeQty computedRequired false
            (ings.map (fun ingr =>
              expand mc depthLimit (ingName ingr) ingr.quantity computedRequired
                (depth + 1) nextVisited))
termination_by depthLimit - depth
decreasing_by omega

/-- `buildRecipeTree` (`minecraft.js` lines 444–544): `none` models the
`null` "unavailable" outcome for an unknown root item. -/
def buildRecipeTree (mc : MC) (itemName : String) (depthLimit : ℕ)
    (rootQuantity : ℚ) : Option TreeNode :=
  let nameLower := normKey itemName
  match mc.itemsByName nameLower with
  | none => none
  | some _ => some (expand mc depthLimit nameLower rootQuantity 1 0 [])

/-- The multiplicative-scaling invariant of claim C8: every child's
`computedRequired` is its parent's `computedRequired` times the child's
per-parent `quantity`, recursively. -/
def ScaleInv : TreeNode → Prop
  | .mk _ _ cr _ children =>
    ∀ c ∈ children, c.computedRequired = cr * c.quantity ∧ ScaleInv c
termination_by t => sizeOf t
decreasing_by
  rename_i hc
  have := List.sizeOf_lt_of_mem hc
  simp only [TreeNode.mk.sizeOf_spec]
  omega

/-- A knowledge base with no items at all. -/
def mcEmpty : MC := ⟨fun _ => none, fun _ => [], fun _ => none⟩

/-- A knowledge base with one item `a` that has no recipe. -/
def mcOnlyA : MC :=
  ⟨fun s => if s == "a" then some ⟨0, "a"⟩ else none, fun _ => [], fun _ => none⟩

/-- A knowledge base where item `x` has a recipe with zero ingredients. -/
def mcZero : MC :=
  ⟨fun s => if s == "x" then some ⟨0, "x"⟩ else none,
   fun i => if i = 0 then [{ ingredients := some [] }] else [],
   fun _ => none⟩

/-- A cyclic knowledge base: `a` needs `b` and `b` needs `a`. -/
def cycMC : MC :=
  ⟨fun s => if s == "a" then some ⟨0, "a"⟩ else if s == "b" then some ⟨1, "b"⟩ else none,
   fun i =>
     if i = 0 then [{ ingredients := some [.num 1] }]
     else if i = 1 then [{ ingredients := some [.num 0] }]
     else [],
   fun i => if i = 0 then some ⟨0, "a"⟩ else if i = 1 then some ⟨1, "b"⟩ else none⟩

/-- A diamond-shaped knowledge base: `r` needs `b` and `c`, both of which
need `d`, which needs `e`; `e` is raw.  `d` occurs on two sibling paths. -/
def sibMC : MC :=
  ⟨fun s =>
     if s == "r" then some ⟨0, "r"⟩
     else if s == "b" then some ⟨1, "b"⟩
     else if s == "c" then some ⟨2, "c"⟩
     else if s == "d" then some ⟨3, "d"⟩
     else if s == "e" then some ⟨4, "e"⟩
     else none,
   fun i =>
     if i = 0 then [{ ingredients := some [.num 1, .num 2] }]
     else if i = 1 then [{ ingredients := some [.num 3] }]
     else if i = 2 then [{ ingredients := some [.num 3] }]
     else if i = 3 then [{ ingredients := some [.num 4] }]
     else [],
   fun i =>
     if i = 0 then some ⟨0, "r"⟩
     else if i = 1 then some ⟨1, "b"⟩
     else if i = 2 then some ⟨2, "c"⟩
     else if i = 3 then some ⟨3, "d"⟩
     else if i = 4 then some ⟨4, "e"⟩
     else none⟩

/-- A one-item project whose item lists itself twice as a dependency:
the input separating occurrence counting from other-item counting. -/
def itemsSelf : List Item := [⟨"a", 1, 0, ["a", "a"]⟩]

/-- A JS number that is an integer at least 1 — the invariant claimed for
resolver quantities. -/
def IntGe1 (x : ℚ) : Prop := ∃ n : ℤ, x = (n : ℚ) ∧ 1 ≤ n

/-! ## Theorems -/

/-- **C2.** `computeItemStatuses` assigns each item `completed` iff its
collected quantity has reached its required quantity; otherwise `blocked` iff
its dependency list is non-empty and some dependency name (lowercased,
trimmed) is missing from the completed-name set — names matching no item at
all included — and `pending` exactly in the remaining case. -/
theorem computeItemStatuses_spec (items : List Item) (j : ℕ) (si : StatusItem)
    (hsi : (computeItemStatuses items)[j]? = some si) :
    items[j]? = some si.toItem ∧
    (si.status = .completed ↔ si.quantityRequired ≤ si.quantityCollected) ∧
    (si.status = .blocked ↔
      ¬ si.quantityRequired ≤ si.quantityCollected ∧ si.dependencies ≠ [] ∧
        ∃ d ∈ si.dependencies, normKey d ∉ completedNames items) ∧
    (si.status = .pending ↔
      ¬ si.quantityRequired ≤ si.quantityCollected ∧
        (si.dependencies = [] ∨ ∀ d ∈ si.dependencies, normKey d ∈ completedNames items)) := by
  simp only [computeItemStatuses, List.getElem?_map] at hsi
  obtain ⟨i, hij, rfl⟩ := Option.map_eq_some'.mp hsi
  refine ⟨hij, ?_⟩
  have hcond :
      (0 < i.dependencies.length ∧
        i.dependencies.any fun dep => !(completedNames items).contains (normKey dep)) ↔
      (i.dependencies ≠ [] ∧ ∃ d ∈ i.dependencies, normKey d ∉ completedNames items) := by
    simp [List.any_eq_true, List.length_pos]
  simp only [itemStatus]
  split_ifs with h1 h2
  · simp [h1]
  · refine ⟨by simp [h1], ?_, ?_⟩
    · exact iff_of_true rfl ⟨h1, hcond.mp h2⟩
    · refine iff_of_false (by simp) ?_
      rintro ⟨-, h | h⟩
      · exact (hcond.mp h2).1 h
      · obtain ⟨-, d, hd, hdm⟩ := hcond.mp h2
        exact hdm (h d hd)
  · refine ⟨by simp [h1], ?_, ?_⟩
    · refine iff_of_false (by simp) ?_
      rintro ⟨-, hb, hc⟩
      exact (hcond.not.mp h2) ⟨hb, hc⟩
    · refine iff_of_true rfl ⟨h1, ?_⟩
      rcases not_and_or.mp (hcond.not.mp h2) with h | h
      · exact Or.inl (not_not.mp h)
      · push_neg at h
        exact Or.inr fun d hd => h d hd

/-- Witness for C2: on a one-item project whose single dependency `b` names
no item, the item is `blocked`. -/
theorem computeItemStatuses_spec_witness :
    (⟨⟨"a", 1, 0, ["b"]⟩, .blocked⟩ : StatusItem).status = .blocked :=
  ((computeItemStatuses_spec [⟨"a", 1, 0, ["b"]⟩] 0 ⟨⟨"a", 1, 0, ["b"]⟩, .blocked⟩
      (by decide)).2.2.1).mpr (by decide)

/-- Replacing one item's collected quantity leaves the required-sum unchanged
and can only grow the capped collected-sum. -/
theorem progress_sums_set (items : List Item) (j : ℕ) (i : Item) (c' : ℤ)
    (hj : items[j]? = some i) (hc : i.quantityCollected ≤ c') :
    (((items.set j { i with quantityCollected := c' }).map
        (fun x => x.quantityRequired)).sum
      = (items.map (fun x => x.quantityRequired)).sum) ∧
    ((items.map (fun x => min x.quantityCollected x.quantityRequired)).sum ≤
      ((items.set j { i with quantityCollected := c' }).map
        (fun x => min x.quantityCollected x.quantityRequired)).sum) := by
  induction items generalizing j with
  | nil => simp at hj
  | cons x xs ih =>
    cases j with
    | zero =>
      simp only [List.getElem?_cons_zero, Option.some_inj] at hj
      subst hj
      refine ⟨by simp, ?_⟩
      simp only [List.set_cons_zero, List.map_cons, List.sum_cons]
      exact add_le_add_right (min_le_min hc le_rfl) _
    | succ n =>
      simp only [List.getElem?_cons_succ] at hj
      obtain ⟨hreq, hcol⟩ := ih n hj
      refine ⟨?_, ?_⟩
      · simpa [List.set_cons_succ] using hreq
      · simpa [List.set_cons_succ] using
          add_le_add_left hcol (min x.quantityCollected x.quantityRequired)

/-- **C9.** With all required quantities fixed, `computeProgress(...).percent`
is monotonically non-decreasing when any single item's collected quantity is
replaced by a larger value. -/
theorem computeProgress_percent_mono (items : List Item) (j : ℕ) (i : Item) (c' : ℤ)
    (hj : items[j]? = some i) (hc : i.quantityCollected ≤ c') :
    (computeProgress items).percent ≤
      (computeProgress (items.set j { i with quantityCollected := c' })).percent := by
  obtain ⟨hreq, hcol⟩ := progress_sums_set items j i c' hj hc
  simp only [computeProgress, hreq]
  set tr : ℤ := (items.map (fun x => x.quantityRequired)).sum with htr
  set tc : ℤ := (items.map (fun x => min x.quantityCollected x.quantityRequired)).sum
  set tc' : ℤ := ((items.set j { i with quantityCollected := c' }).map
    (fun x => min x.quantityCollected x.quantityRequired)).sum
  by_cases hpos : 0 < tr
  · simp only [hpos, if_true]
    have htrQ : (0 : ℚ) < (tr : ℚ) := by exact_mod_cast hpos
    have hfl : ⌊(tc : ℚ) / (tr : ℚ) * 1000 + 1/2⌋ ≤ ⌊(tc' : ℚ) / (tr : ℚ) * 1000 + 1/2⌋ := by
      apply Int.floor_le_floor
      have hcast : (tc : ℚ) ≤ (tc' : ℚ) := by exact_mod_cast hcol
      gcongr
    have hflQ : ((⌊(tc : ℚ) / (tr : ℚ) * 1000 + 1/2⌋ : ℤ) : ℚ) ≤
        ((⌊(tc' : ℚ) / (tr : ℚ) * 1000 + 1/2⌋ : ℤ) : ℚ) := by exact_mod_cast hfl
    linarith
  · simp [hpos]

/-- Witness for C9: raising the collected quantity of the only item of a
two-required project from 0 to 1 does not decrease the percentage. -/
theorem computeProgress_percent_mono_witness :
    (computeProgress [⟨"a", 2, 0, []⟩]).percent ≤
      (computeProgress [⟨"a", 2, 1, []⟩]).percent :=
  computeProgress_percent_mono [⟨"a", 2, 0, []⟩] 0 ⟨"a", 2, 0, []⟩ 1
    (by decide) (by decide)

/-- Concrete evaluation: on `itemsSelf` the single candidate carries the
occurrence count 2 (its own dependency list names it twice). -/
theorem detectBottlenecks_itemsSelf :
    detectBottlenecks itemsSelf 3 = [⟨"a", 2, 1⟩] := by
  have hbeq : (normKey "a" == ("a" : String)) = true := by decide
  simp [detectBottlenecks, bottleneckCandidates, dependedOnCount, itemsSelf,
    List.mergeSort, hbeq, List.countP_cons]

/-- **C5, counterexample.** The claim reads `blockingCount` as the number of
*other items* listing the item as a dependency; on `itemsSelf` the code
reports 2 (occurrences, its own list included) while no other item lists
`a` at all. -/
theorem detectBottlenecks_blocking_counterexample :
    ¬ (∀ b ∈ detectBottlenecks itemsSelf 3,
        b.blockingCount = othersListingCount itemsSelf b.name) := by
  intro h
  have h2 := h ⟨"a", 2, 1⟩ (by rw [detectBottlenecks_itemsSelf]; exact List.mem_singleton_self _)
  have h3 : othersListingCount itemsSelf "a" = 0 := by decide
  simp [h3] at h2

/-- The comparator of `detectBottlenecks` is transitive. -/
theorem bneckLE_trans (a b c : Bneck) (hab : bneckLE a b = true)
    (hbc : bneckLE b c = true) : bneckLE a c = true := by
  simp only [bneckLE] at *
  split_ifs at * <;> simp_all <;> omega

/-- The comparator of `detectBottlenecks` is total. -/
theorem bneckLE_total (a b : Bneck) : (bneckLE a b || bneckLE b a) = true := by
  simp only [bneckLE]
  split_ifs <;> simp_all <;> omega

/-- **C5, amended.** Every entry returned by `detectBottlenecks` stems from an
incomplete item and carries `blockingCount` equal to the total number of
occurrences of that item's normalised name across all dependency lists (the
item's own list included, duplicates counted) and `remaining = required −
collected`; the result is sorted by `blockingCount` descending with ties
broken by `remaining` descending, and has at most `topN` entries. -/
theorem detectBottlenecks_spec (items : List Item) (topN : ℕ) :
    (∀ b ∈ detectBottlenecks items topN, ∃ i ∈ items,
        i.quantityCollected < i.quantityRequired ∧ b.name = i.name ∧
        b.blockingCount = dependedOnCount items (normKey i.name) ∧
        b.remaining = i.quantityRequired - i.quantityCollected) ∧
    (detectBottlenecks items topN).length ≤ topN ∧
    (detectBottlenecks items topN).Pairwise (fun a b =>
      b.blockingCount < a.blockingCount ∨
        (a.blockingCount = b.blockingCount ∧ b.remaining ≤ a.remaining)) ∧
    ((bottleneckCandidates items).mergeSort bneckLE).Perm (bottleneckCandidates items) ∧
    detectBottlenecks items topN =
      ((bottleneckCandidates items).mergeSort bneckLE).take topN := by
  refine ⟨?_, ?_, ?_, List.mergeSort_perm _ _, rfl⟩
  · intro b hb
    have hb' : b ∈ (bottleneckCandidates items).mergeSort bneckLE :=
      List.mem_of_mem_take hb
    have hb'' : b ∈ bottleneckCandidates items :=
      (List.mergeSort_perm (bottleneckCandidates items) bneckLE).mem_iff.mp hb'
    obtain ⟨i, hi, hf⟩ := List.mem_filterMap.mp hb''
    refine ⟨i, hi, ?_⟩
    by_cases hcmp : i.quantityRequired ≤ i.quantityCollected
    · simp [hcmp] at hf
    · simp only [hcmp, if_false, Option.some_inj] at hf
      subst hf
      exact ⟨by omega, rfl, rfl, rfl⟩
  · simpa [detectBottlenecks] using min_le_left topN _
  · have hsorted := List.sorted_mergeSort
      (fun a b c hab hbc => bneckLE_trans a b c hab hbc)
      (fun a b => bneckLE_total a b) (bottleneckCandidates items)
    have htake : (detectBottlenecks items topN).Pairwise
        (fun a b => bneckLE a b = true) :=
      List.Pairwise.sublist (List.take_sublist _ _) hsorted
    refine htake.imp ?_
    intro a b hab
    simp only [bneckLE] at hab
    split_ifs at hab with hne
    · exact Or.inl (by simpa using hab)
    · exact Or.inr ⟨by omega, by simpa using hab⟩

/-- Witness for C5's amended theorem: on `itemsSelf` the single returned
entry is matched by the incomplete source item. -/
theorem detectBottlenecks_spec_witness :
    ∃ i ∈ itemsSelf, i.quantityCollected < i.quantityRequired ∧
      (⟨"a", 2, 1⟩ : Bneck).name = i.name ∧
      (⟨"a", 2, 1⟩ : Bneck).blockingCount = dependedOnCount itemsSelf (normKey i.name) ∧
      (⟨"a", 2, 1⟩ : Bneck).remaining = i.quantityRequired - i.quantityCollected :=
  (detectBottlenecks_spec itemsSelf 3).1 ⟨"a", 2, 1⟩
    (by rw [detectBottlenecks_itemsSelf]; exact List.mem_singleton_self _)

/-- The positional increment hits exactly the first name-matching item, so a
subsequent lookup sees its collected quantity raised by `amt`. -/
theorem find?_incFirst (items : List Item) (key : String) (amt : ℤ) :
    (incFirst items key amt).find? (fun i => normKey i.name == key) =
      (items.find? (fun i => normKey i.name == key)).map
        (fun i => { i with quantityCollected := i.quantityCollected + amt }) := by
  induction items with
  | nil => simp [incFirst]
  | cons x xs ih =>
    by_cases h : (normKey x.name == key) = true
    · simp [incFirst, h, List.find?_cons]
    · simp only [incFirst, h, if_false, Bool.false_eq_true]
      rw [List.find?_cons_of_neg _ (by simpa using h),
        List.find?_cons_of_neg _ (by simpa using h), ih]

/-- **C3.** A contribute call with a positive quantity `q` on an existing
item with met dependencies and `0 < remaining < q` succeeds with
`acceptedQuantity = remaining`, `remainderRequested = q − remaining`, reports
0 remaining, and leaves the item exactly full. -/
theorem contribute_caps_at_remaining (s : ProjState) (itemName : String) (q : ℤ)
    (target : Item)
    (hfind : s.items.find? (fun i => normKey i.name == routeNorm itemName) = some target)
    (hdeps : getUnmetDependencies s.items target.name = [])
    (hq : 1 ≤ q)
    (hrem : 0 < target.quantityRequired - target.quantityCollected)
    (hlt : target.quantityRequired - target.quantityCollected < q) :
    (contribute s itemName q).1 =
      .ok (target.quantityRequired - target.quantityCollected)
        (q - (target.quantityRequired - target.quantityCollected)) 0 ∧
    (contribute s itemName q).2.items.find?
        (fun i => normKey i.name == routeNorm itemName) =
      some { target with quantityCollected := target.quantityRequired } := by
  have hq' : ¬ q < 1 := by omega
  have hrem' : ¬ target.quantityRequired - target.quantityCollected ≤ 0 := by omega
  have hmin : min q (target.quantityRequired - target.quantityCollected) =
      target.quantityRequired - target.quantityCollected :=
    min_eq_right (le_of_lt hlt)
  have hfull : target.quantityCollected +
      (target.quantityRequired - target.quantityCollected) = target.quantityRequired := by
    ring
  unfold contribute
  simp only [hq', if_false, hfind, hdeps, List.length_nil, lt_irrefl, if_false,
    hrem', hmin, find?_incFirst, hfind, Option.map_some', hfull]
  simp

/-- Witness for C3: contributing 5 sticks when 2 of 2 remain accepts 2,
reports remainder 3 and fills the item. -/
theorem contribute_caps_at_remaining_witness :
    (contribute ⟨[⟨"stick", 2, 0, []⟩], [], []⟩ "stick" 5).1 = .ok 2 3 0 ∧
    (contribute ⟨[⟨"stick", 2, 0, []⟩], [], []⟩ "stick" 5).2.items.find?
        (fun i => normKey i.name == routeNorm "stick") =
      some ⟨"stick", 2, 2, []⟩ := by
  have h := contribute_caps_at_remaining ⟨[⟨"stick", 2, 0, []⟩], [], []⟩ "stick" 5
    ⟨"stick", 2, 0, []⟩ (by decide) (by decide) (by decide) (by decide) (by decide)
  refine ⟨?_, ?_⟩
  · have := h.1; norm_num at this ⊢; exact this
  · have := h.2; norm_num at this ⊢; exact this

/-- **C4.** When the target item exists and at least one of its dependency
names (lowercased, trimmed) is missing from the completed-name set, the call
is rejected with a conflict carrying exactly the unmet dependency names and
the state — items, contribution records and events — is returned unchanged. -/
theorem contribute_unmet_rejects (s : ProjState) (itemName : String) (q : ℤ)
    (target : Item)
    (hfind : s.items.find? (fun i => normKey i.name == routeNorm itemName) = some target)
    (hq : 1 ≤ q)
    (hd : ∃ d ∈ target.dependencies, normKey d ∉ completedNames s.items) :
    contribute s itemName q =
      (.unmetDependencies (target.dependencies.filter
          (fun dep => !((completedNames s.items).contains (normKey dep)))), s) := by
  have hq' : ¬ q < 1 := by omega
  have hname : normKey target.name = routeNorm itemName := by
    have := List.find?_some hfind
    simpa using this
  have hgu : getUnmetDependencies s.items target.name =
      target.dependencies.filter
        (fun dep => !((completedNames s.items).contains (normKey dep))) := by
    unfold getUnmetDependencies
    rw [hname]
    simp only [hfind]
    have hlen : ¬ target.dependencies.length = 0 := by
      obtain ⟨d, hd', -⟩ := hd
      intro h0
      rw [List.length_eq_zero] at h0
      simp [h0] at hd'
    simp [hlen]
  have hne : target.dependencies.filter
      (fun dep => !((completedNames s.items).contains (normKey dep))) ≠ [] := by
    obtain ⟨d, hd', hdm⟩ := hd
    intro h0
    have hmem : d ∈ target.dependencies.filter
        (fun dep => !((completedNames s.items).contains (normKey dep))) :=
      List.mem_filter.mpr ⟨hd', by simpa using hdm⟩
    rw [h0] at hmem
    exact absurd hmem (List.not_mem_nil d)
  have hpos : 0 < (target.dependencies.filter
      (fun dep => !((completedNames s.items).contains (normKey dep)))).length :=
    List.length_pos.mpr hne
  unfold contribute
  simp only [hq', if_false, hfind, hgu, hpos, if_true]

/-- Witness for C4: contributing to `iron_ingot` while its dependency
`cobblestone` is incomplete is rejected with exactly `["cobblestone"]` and
leaves the project untouched. -/
theorem contribute_unmet_rejects_witness :
    contribute ⟨[⟨"cobblestone", 3, 0, []⟩, ⟨"iron_ingot", 3, 0, ["cobblestone"]⟩], [], []⟩
        "iron_ingot" 1 =
      (.unmetDependencies ["cobblestone"],
        ⟨[⟨"cobblestone", 3, 0, []⟩, ⟨"iron_ingot", 3, 0, ["cobblestone"]⟩], [], []⟩) := by
  have h := contribute_unmet_rejects
    ⟨[⟨"cobblestone", 3, 0, []⟩, ⟨"iron_ingot", 3, 0, ["cobblestone"]⟩], [], []⟩
    "iron_ingot" 1 ⟨"iron_ingot", 3, 0, ["cobblestone"]⟩ (by decide) (by decide)
    (by decide)
  have hf : (["cobblestone"].filter (fun dep =>
      !((completedNames [⟨"cobblestone", 3, 0, []⟩,
        ⟨"iron_ingot", 3, 0, ["cobblestone"]⟩]).contains (normKey dep)))) =
      ["cobblestone"] := by decide
  rw [hf] at h
  exact h

/-- Transport a fallback step along an equality of target states. -/
theorem FStep.cast {r : ℤ} {s t t' : FSys} (h : FStep r s t) (he : t = t') :
    FStep r s t' := he ▸ h

/-- **C1, failing execution.** Two concurrent fallback-path calls, each
requesting 2 on an item with `required = 3` starting at 0, can both read
before either writes; both arm `acceptedQuantity = 2`, both conditional
writes see `collected < required`, and the item ends at `4 > 3`.  The
fallback strategy therefore does not preserve the bound the spec (and the
repo's own endpoint notes) promise. -/
theorem contribute_fallback_overshoot :
    FReach 3 ⟨0, [.pendingRead 2, .pendingRead 2]⟩ ⟨4, [.done true, .done true]⟩ ∧
    ¬ ((4 : ℤ) ≤ 3) := by
  have h1 : FStep 3 ⟨0, [.pendingRead 2, .pendingRead 2]⟩
      ⟨0, [.armed 2, .pendingRead 2]⟩ :=
    (FStep.read 0 2 ⟨0, [.pendingRead 2, .pendingRead 2]⟩
      (by decide) (by decide)).cast (by decide)
  have h2 : FStep 3 ⟨0, [.armed 2, .pendingRead 2]⟩ ⟨0, [.armed 2, .armed 2]⟩ :=
    (FStep.read 1 2 ⟨0, [.armed 2, .pendingRead 2]⟩
      (by decide) (by decide)).cast (by decide)
  have h3 : FStep 3 ⟨0, [.armed 2, .armed 2]⟩ ⟨2, [.done true, .armed 2]⟩ :=
    (FStep.write 0 2 ⟨0, [.armed 2, .armed 2]⟩
      (by decide) (by decide)).cast (by decide)
  have h4 : FStep 3 ⟨2, [.done true, .armed 2]⟩ ⟨4, [.done true, .done true]⟩ :=
    (FStep.write 1 2 ⟨2, [.done true, .armed 2]⟩
      (by decide) (by decide)).cast (by decide)
  exact ⟨Relation.ReflTransGen.head h1 (Relation.ReflTransGen.head h2
    (Relation.ReflTransGen.head h3 (Relation.ReflTransGen.single h4))),
    by decide⟩

/-- One transactional commit never drives `collected` above `required`. -/
theorem tstep_no_overshoot (required : ℤ) {s t : FSys} (h : TStep required s t)
    (hinv : s.collected ≤ required) : t.collected ≤ required := by
  cases h with
  | commit i q h' hrem =>
    have hle := min_le_right q (required - s.collected)
    show s.collected + min q (required - s.collected) ≤ required
    omega
  | abortComplete i q h' hrem => exact hinv

/-- For contrast with the failing fallback execution: the transactional
strategy, whose fresh read, acceptance recomputation and increment form one
atomic step, never drives `collected` above `required` from a within-bound
state, under any interleaving. -/
theorem transactional_no_overshoot (required : ℤ) (s t : FSys)
    (h : TReach required s t) (hinv : s.collected ≤ required) :
    t.collected ≤ required := by
  induction h with
  | refl => exact hinv
  | tail _ hbc ih => exact tstep_no_overshoot required hbc ih

/-- Witness for the transactional bound: a completed two-call run from 0 of 3
stays within the bound. -/
theorem transactional_no_overshoot_witness :
    (⟨3, [FCallState.done true, FCallState.done true]⟩ : FSys).collected ≤ 3 := by
  have h1 : TStep 3 ⟨0, [.pendingRead 2, .pendingRead 2]⟩
      ⟨2, [.done true, .pendingRead 2]⟩ :=
    (by decide : (⟨0 + min 2 (3 - 0), [FCallState.pendingRead 2,
        FCallState.pendingRead 2].set 0 (.done true)⟩ : FSys) =
      ⟨2, [.done true, .pendingRead 2]⟩) ▸
      TStep.commit 0 2 ⟨0, [.pendingRead 2, .pendingRead 2]⟩ (by decide) (by decide)
  have h2 : TStep 3 ⟨2, [.done true, .pendingRead 2]⟩
      ⟨3, [.done true, .done true]⟩ :=
    (by decide : (⟨2 + min 2 (3 - 2), [FCallState.done true,
        FCallState.pendingRead 2].set 1 (.done true)⟩ : FSys) =
      ⟨3, [.done true, .done true]⟩) ▸
      TStep.commit 1 2 ⟨2, [.done true, .pendingRead 2]⟩ (by decide) (by decide)
  exact transactional_no_overshoot 3 ⟨0, [.pendingRead 2, .pendingRead 2]⟩
    ⟨3, [.done true, .done true]⟩
    (Relation.ReflTransGen.head h1 (Relation.ReflTransGen.single h2)) (by decide)

/-- **C6.** `buildDependencyList` returns the distinct `unavailable` value
(`none`) when the root item is unknown to the knowledge base or has neither a
crafting nor a smithing recipe; a root whose chosen recipe resolves to zero
ingredients yields `some` of the empty (untruncated) list instead. -/
theorem buildDependencyList_unavailable (mc : MC) (finalItem : String)
    (depthLimit maxNodes : ℕ) :
    (mc.itemsByName (normKey finalItem) = none →
      buildDependencyList mc finalItem depthLimit maxNodes = none) ∧
    (∀ obj, mc.itemsByName (normKey finalItem) = some obj →
      mc.recipes obj.id = [] → SMITHING_RECIPES (normKey finalItem) = none →
      buildDependencyList mc finalItem depthLimit maxNodes = none) ∧
    (∀ obj, mc.itemsByName (normKey finalItem) = some obj →
      (mc.recipes obj.id ≠ [] ∨ SMITHING_RECIPES (normKey finalItem) ≠ none) →
      seedIngredientsOf mc (mc.recipes obj.id) (SMITHING_RECIPES (normKey finalItem)) = [] →
      buildDependencyList mc finalItem depthLimit maxNodes = some ⟨[], false⟩) := by
  refine ⟨?_, ?_, ?_⟩
  · intro h
    simp [buildDependencyList, h]
  · intro obj hobj hrec hsmith
    simp [buildDependencyList, hobj, hrec, hsmith]
  · intro obj hobj hsome hseed
    have hcond : ¬ (mc.recipes obj.id = [] ∧ SMITHING_RECIPES (normKey finalItem) = none) := by
      rcases hsome with h | h <;> tauto
    simp only [buildDependencyList, hobj, hcond, if_false, hseed]
    simp [bdlLoop]

/-- Witness for C6: an item name unknown to an empty knowledge base yields
`unavailable`. -/
theorem buildDependencyList_unavailable_witness :
    buildDependencyList mcEmpty "unknown_item" 1 200 = none :=
  (buildDependencyList_unavailable mcEmpty "unknown_item" 1 200).1 rfl

/-- Every quantity `normaliseIngredients` emits is
`Math.max(1, Math.ceil(count))`: an integer at least 1. -/
theorem normaliseIngredients_integral (mc : MC) (r : Option Recipe) :
    ∀ ing ∈ normaliseIngredients mc r, IntGe1 ing.quantity := by
  intro ing hing
  cases r with
  | none => simp [normaliseIngredients] at hing
  | some r' =>
    simp only [normaliseIngredients, List.mem_map] at hing
    obtain ⟨idq, -, rfl⟩ := hing
    exact ⟨max 1 ⌈(idq.2 : ℚ)⌉, rfl, le_max_left _ _⟩

/-- `aggAdd` preserves integrality of the aggregated quantities. -/
theorem aggAdd_integral (agg : List (String × DepEntry)) (key : String)
    (qInt : ℤ) (isRaw : Bool) (entry : DepEntry)
    (hagg : ∀ p ∈ agg, IntGe1 p.2.quantityRequired)
    (hentry : IntGe1 entry.quantityRequired) (hq : 1 ≤ qInt) :
    ∀ p ∈ aggAdd agg key qInt isRaw entry, IntGe1 p.2.quantityRequired := by
  induction agg with
  | nil =>
    intro p hp
    simp only [aggAdd, List.mem_singleton] at hp
    subst hp
    exact hentry
  | cons x t ih =>
    intro p hp
    by_cases hk : (x.1 == key) = true
    · simp only [aggAdd, hk, if_true, List.mem_cons] at hp
      rcases hp with hp | hp
      · subst hp
        obtain ⟨n, hn, h1⟩ := hagg x (List.mem_cons_self x t)
        exact ⟨n + qInt, by push_cast [hn]; ring, by omega⟩
      · exact hagg p (List.mem_cons_of_mem x hp)
    · simp only [aggAdd, hk, Bool.false_eq_true, if_false, List.mem_cons] at hp
      rcases hp with hp | hp
      · subst hp
        exact hagg x (List.mem_cons_self x t)
      · exact ih (fun q hq' => hagg q (List.mem_cons_of_mem x hq')) p hp

/-- The BFS loop of `buildDependencyList` preserves integrality of all
aggregated quantities. -/
theorem bdlLoop_integral (mc : MC) (depthLimit maxNodes : ℕ)
    (queue : List QNode) (agg : List (String × DepEntry)) (visited : ℕ)
    (truncated : Bool) :
    (∀ p ∈ agg, IntGe1 p.2.quantityRequired) →
    ∀ p ∈ (bdlLoop mc depthLimit maxNodes queue agg visited truncated).1,
      IntGe1 p.2.quantityRequired := by
  induction queue, agg, visited, truncated using bdlLoop.induct mc depthLimit maxNodes with
  | case1 agg visited truncated =>
    intro hagg
    simpa [bdlLoop] using hagg
  | case2 node rest agg visited truncated hbudget =>
    intro hagg
    rw [bdlLoop, dif_pos hbudget]
    exact hagg
  | case3 node rest agg visited truncated hbudget v' qI inf ent ag' exp ih =>
    intro hagg
    rw [bdlLoop, dif_neg hbudget]
    exact ih (aggAdd_integral agg (aggKey node) qI inf.1 ent hagg
      ⟨qI, rfl, le_max_left _ _⟩ (le_max_left _ _))

/-- **C10.** Every ingredient record `normaliseIngredients` produces and
every entry of a successful `buildDependencyList` carries a quantity that is
an integer at least 1, whatever the underlying recipe data contains. -/
theorem resolver_quantities_integral (mc : MC) :
    (∀ r : Option Recipe, ∀ ing ∈ normaliseIngredients mc r, IntGe1 ing.quantity) ∧
    (∀ finalItem depthLimit maxNodes res,
      buildDependencyList mc finalItem depthLimit maxNodes = some res →
      ∀ e ∈ res.entries, IntGe1 e.quantityRequired) := by
  refine ⟨fun r => normaliseIngredients_integral mc r, ?_⟩
  intro finalItem dl mn res hres e he
  unfold buildDependencyList at hres
  cases hobj : mc.itemsByName (normKey finalItem) with
  | none =>
    simp only [hobj] at hres
    cases hres
  | some obj =>
    simp only [hobj] at hres
    by_cases hcond : mc.recipes obj.id = [] ∧ SMITHING_RECIPES (normKey finalItem) = none
    · rw [if_pos hcond] at hres; cases hres
    · rw [if_neg hcond] at hres
      obtain rfl := (Option.some_inj.mp hres).symm
      simp only [List.mem_map] at he
      obtain ⟨p, hp, rfl⟩ := he
      exact bdlLoop_integral mc dl mn _ [] 0 _ (by simp) p hp

/-- Witness for C10: the single ingredient extracted from the cyclic
knowledge base's recipe for `a` carries quantity 1, an integer at least 1. -/
theorem resolver_quantities_integral_witness :
    IntGe1 ((⟨some 1, some "b", 1⟩ : Ingredient).quantity) := by
  have hmem : (⟨some 1, some "b", 1⟩ : Ingredient) ∈
      normaliseIngredients cycMC (some { ingredients := some [.num 1] }) := by
    simp [normaliseIngredients, cellCounts, bump, extractIngredientId, cycMC,
      Nat.cast_one, Int.ceil_one, max_self, Int.cast_one]
  exact (resolver_quantities_integral cycMC).1
    (some { ingredients := some [.num 1] }) _ hmem

/-- An item name already on the current root-to-node path is returned as a
raw leaf with no children and is not re-expanded. -/
theorem expand_visited_leaf (mc : MC) (depthLimit : ℕ) (name : String)
    (pq ps : ℚ) (depth : ℕ) (visited : List String)
    (h : normKey name ∈ visited) :
    expand mc depthLimit name pq ps depth visited = .mk name pq (ps * pq) true [] := by
  rw [expand.eq_def]
  simp only []
  rw [if_pos h]

/-- An item with no crafting recipe and no smithing fallback expands to a raw
leaf. -/
theorem expand_noRecipe_leaf (mc : MC) (depthLimit : ℕ) (name : String)
    (pq ps : ℚ) (depth : ℕ) (visited : List String) (it : KBItem)
    (hvis : normKey name ∉ visited)
    (hit : mc.itemsByName (normKey name) = some it)
    (hrec : mc.recipes it.id = [])
    (hsmith : SMITHING_RECIPES (normKey name) = none) :
    expand mc depthLimit name pq ps depth visited = .mk name pq (ps * pq) true [] := by
  rw [expand.eq_def]
  simp only [hvis, if_false, hit, hrec, hsmith]
  simp [pickCraftingRecipe]

/-- Every branch of `expand` reports back the per-recipe quantity it was
called with and scales its requirement by the parent's. -/
theorem expand_fields (mc : MC) (depthLimit : ℕ) (name : String) (pq ps : ℚ)
    (depth : ℕ) (visited : List String) :
    (expand mc depthLimit name pq ps depth visited).name = name ∧
    (expand mc depthLimit name pq ps depth visited).quantity = pq ∧
    (expand mc depthLimit name pq ps depth visited).computedRequired = ps * pq := by
  rw [expand.eq_def]
  simp only []
  repeat' split
  all_goals exact ⟨rfl, rfl, rfl⟩

/-- Every tree `expand` builds satisfies the multiplicative-scaling
invariant. -/
theorem scaleInv_expand (mc : MC) (depthLimit : ℕ) (name : String) (pq ps : ℚ)
    (depth : ℕ) (visited : List String) :
    ScaleInv (expand mc depthLimit name pq ps depth visited) := by
  induction name, pq, ps, depth, visited using expand.induct mc depthLimit with
  | case1 name pq ps depth visited key hvis =>
    rw [expand_visited_leaf mc depthLimit name pq ps depth visited hvis]
    simp [ScaleInv]
  | case2 name pq ps depth visited key hvis hnone =>
    rw [expand.eq_def]
    simp only [hvis, if_false, hnone]
    simp [ScaleInv]
  | case3 name pq ps depth visited key hvis nodeItem hitem ingredients hing =>
    rw [expand.eq_def]
    unfold_let ingredients at hing
    simp only [hvis, if_false, hitem, hing]
    simp [ScaleInv]
  | case4 name pq ps depth visited key hvis nodeItem hitem ingredients ings hing hempty =>
    rw [expand.eq_def]
    unfold_let ingredients at hing
    simp only [hvis, if_false, hitem, hing, hempty, if_true]
    simp [ScaleInv]
  | case5 name pq ps depth visited key hvis nodeItem hitem ingredients ings hing hempty hdepth =>
    rw [expand.eq_def]
    unfold_let ingredients at hing
    simp only [hvis, if_false, hitem, hing, hempty, if_true, hdepth,
      Bool.false_eq_true]
    rw [ScaleInv.eq_1]
    intro c hc
    obtain ⟨ingr, -, rfl⟩ := List.mem_map.mp hc
    refine ⟨rfl, ?_⟩
    rw [ScaleInv.eq_1]
    intro c hc
    simp at hc
  | case6 name pq ps depth visited key cr hvis nv nodeItem hitem ingredients ings hing hempty hdepth ih =>
    rw [expand.eq_def]
    unfold_let ingredients at hing
    simp only [hvis, if_false, hitem, hing, hempty, if_true, hdepth,
      Bool.false_eq_true]
    rw [ScaleInv.eq_1]
    intro c hc
    obtain ⟨ingr, -, rfl⟩ := List.mem_map.mp hc
    obtain ⟨-, hq, hcr⟩ := expand_fields mc depthLimit (ingName ingr) ingr.quantity
      (ps * pq) (depth + 1) (normKey name :: visited)
    exact ⟨by rw [hq, hcr], ih ingr⟩

/-- **C8.** In every tree `buildRecipeTree` returns, the root's
`computedRequired` equals `rootQuantity` and every child's
`computedRequired` equals its parent's `computedRequired` times the child's
per-parent quantity — the depth-limit children included. -/
theorem buildRecipeTree_scale (mc : MC) (itemName : String) (depthLimit : ℕ)
    (rootQuantity : ℚ) (t : TreeNode)
    (h : buildRecipeTree mc itemName depthLimit rootQuantity = some t) :
    t.computedRequired = rootQuantity ∧ ScaleInv t := by
  unfold buildRecipeTree at h
  cases hobj : mc.itemsByName (normKey itemName) with
  | none =>
    simp only [hobj] at h
    cases h
  | some obj =>
    simp only [hobj] at h
    obtain rfl := (Option.some_inj.mp h).symm
    refine ⟨?_, scaleInv_expand mc depthLimit _ _ _ _ _⟩
    have hf := (expand_fields mc depthLimit (normKey itemName) rootQuantity 1 0 []).2.2
    rw [hf, one_mul]

/-- Witness for C8: the recipe-less item `a`, requested five times, yields a
single raw node whose requirement is exactly the root quantity. -/
theorem buildRecipeTree_scale_witness :
    (TreeNode.mk "a" 5 5 true []).computedRequired = 5 ∧
    ScaleInv (TreeNode.mk "a" 5 5 true []) := by
  have hn : normKey "a" = "a" := by decide
  have h1 : mcOnlyA.itemsByName "a" = some ⟨0, "a"⟩ := by decide
  have heval : buildRecipeTree mcOnlyA "a" 3 5 = some (.mk "a" 5 5 true []) := by
    have hleaf := expand_noRecipe_leaf mcOnlyA 3 "a" 5 1 0 [] ⟨0, "a"⟩
      (by rw [hn]; exact List.not_mem_nil "a") (by rw [hn]; exact h1) rfl
      (by rw [hn]; decide)
    rw [one_mul] at hleaf
    simp only [buildRecipeTree, hn, h1, hleaf]
  exact buildRecipeTree_scale mcOnlyA "a" 3 5 _ heval

/-- **C7.** `buildRecipeTree` is cycle-safe: a name reappearing along the
current root-to-node path is returned as a raw leaf with empty children
(first conjunct, for every knowledge base); on the cyclic base `a ↔ b` the
expansion terminates with the repeated `a` marked raw (second conjunct); and
because the visited set is per-path, the same item `d` is still fully
expanded in two sibling branches of `sibMC` (third conjunct). -/
theorem buildRecipeTree_cycle_safe :
    (∀ (mc : MC) (depthLimit : ℕ) (name : String) (pq ps : ℚ) (depth : ℕ)
        (visited : List String), normKey name ∈ visited →
        expand mc depthLimit name pq ps depth visited = .mk name pq (ps * pq) true []) ∧
    buildRecipeTree cycMC "a" 5 1 =
      some (.mk "a" 1 1 false [.mk "b" 1 1 false [.mk "a" 1 1 true []]]) ∧
    buildRecipeTree sibMC "r" 5 1 =
      some (.mk "r" 1 1 false
        [.mk "b" 1 1 false [.mk "d" 1 1 false [.mk "e" 1 1 true []]],
         .mk "c" 1 1 false [.mk "d" 1 1 false [.mk "e" 1 1 true []]]]) := by
  refine ⟨fun mc dl name pq ps depth visited h =>
    expand_visited_leaf mc dl name pq ps depth visited h, ?_, ?_⟩
  · have hna : normKey "a" = "a" := by decide
    have hnb : normKey "b" = "b" := by decide
    have hia : cycMC.itemsByName "a" = some ⟨0, "a"⟩ := by decide
    have hib : cycMC.itemsByName "b" = some ⟨1, "b"⟩ := by decide
    have hra : cycMC.recipes 0 = [{ ingredients := some [.num 1] }] := by decide
    have hrb : cycMC.recipes 1 = [{ ingredients := some [.num 0] }] := by decide
    have hpa : pickCraftingRecipe [({ ingredients := some [.num 1] } : Recipe)] =
        some { ingredients := some [.num 1] } := by decide
    have hpb : pickCraftingRecipe [({ ingredients := some [.num 0] } : Recipe)] =
        some { ingredients := some [.num 0] } := by decide
    have hga : normaliseIngredients cycMC (some { ingredients := some [.num 1] }) =
        [⟨some 1, some "b", 1⟩] := by decide
    have hgb : normaliseIngredients cycMC (some { ingredients := some [.num 0] }) =
        [⟨some 0, some "a", 1⟩] := by decide
    have hinb : ingName ⟨some 1, some "b", 1⟩ = "b" := by decide
    have hina : ingName ⟨some 0, some "a", 1⟩ = "a" := by decide
    have hA2 : expand cycMC 5 "a" 1 1 2 ["b", "a"] = .mk "a" 1 1 true [] := by
      have h := expand_visited_leaf cycMC 5 "a" 1 1 2 ["b", "a"]
        (by rw [hna]; simp)
      rw [one_mul] at h
      exact h
    have hB1 : expand cycMC 5 "b" 1 1 1 ["a"] =
        .mk "b" 1 1 false [.mk "a" 1 1 true []] := by
      rw [expand.eq_def]
      simp only [hnb, hib, hrb, hpb, hgb, hina, one_mul]
      rw [if_neg (by decide : ¬ ("b" : String) ∈ ["a"])]
      simp only [List.isEmpty_cons, Bool.false_eq_true, if_false,
        (by decide : ¬ (5 : ℕ) ≤ 1), List.map_cons, List.map_nil, hina,
        Nat.reduceAdd, hA2]
    have hA0 : expand cycMC 5 "a" 1 1 0 [] =
        .mk "a" 1 1 false [.mk "b" 1 1 false [.mk "a" 1 1 true []]] := by
      rw [expand.eq_def]
      simp only [hna, hia, hra, hpa, hga, hinb, one_mul]
      rw [if_neg (List.not_mem_nil "a")]
      simp only [List.isEmpty_cons, Bool.false_eq_true, if_false,
        (by decide : ¬ (5 : ℕ) ≤ 0), List.map_cons, List.map_nil, hinb,
        Nat.reduceAdd, hB1]
    simp only [buildRecipeTree, hna, hia, hA0]
  · have hnr : normKey "r" = "r" := by decide
    have hnb : normKey "b" = "b" := by decide
    have hnc : normKey "c" = "c" := by decide
    have hnd : normKey "d" = "d" := by decide
    have hne' : normKey "e" = "e" := by decide
    have hir : sibMC.itemsByName "r" = some ⟨0, "r"⟩ := by decide
    have hib : sibMC.itemsByName "b" = some ⟨1, "b"⟩ := by decide
    have hic : sibMC.itemsByName "c" = some ⟨2, "c"⟩ := by decide
    have hid : sibMC.itemsByName "d" = some ⟨3, "d"⟩ := by decide
    have hie : sibMC.itemsByName "e" = some ⟨4, "e"⟩ := by decide
    have hrr : sibMC.recipes 0 = [{ ingredients := some [.num 1, .num 2] }] := by decide
    have hrb : sibMC.recipes 1 = [{ ingredients := some [.num 3] }] := by decide
    have hrc : sibMC.recipes 2 = [{ ingredients := some [.num 3] }] := by decide
    have hrd : sibMC.recipes 3 = [{ ingredients := some [.num 4] }] := by decide
    have hpr : pickCraftingRecipe [({ ingredients := some [.num 1, .num 2] } : Recipe)] =
        some { ingredients := some [.num 1, .num 2] } := by decide
    have hpb : pickCraftingRecipe [({ ingredients := some [.num 3] } : Recipe)] =
        some { ingredients := some [.num 3] } := by decide
    have hpd : pickCraftingRecipe [({ ingredients := some [.num 4] } : Recipe)] =
        some { ingredients := some [.num 4] } := by decide
    have hgr : normaliseIngredients sibMC (some { ingredients := some [.num 1, .num 2] }) =
        [⟨some 1, some "b", 1⟩, ⟨some 2, some "c", 1⟩] := by decide
    have hgb : normaliseIngredients sibMC (some { ingredients := some [.num 3] }) =
        [⟨some 3, some "d", 1⟩] := by decide
    have hgd : normaliseIngredients sibMC (some { ingredients := some [.num 4] }) =
        [⟨some 4, some "e", 1⟩] := by decide
    have hinb : ingName ⟨some 1, some "b", 1⟩ = "b" := by decide
    have hinc : ingName ⟨some 2, some "c", 1⟩ = "c" := by decide
    have hind : ingName ⟨some 3, some "d", 1⟩ = "d" := by decide
    have hine : ingName ⟨some 4, some "e", 1⟩ = "e" := by decide
    have hEb : expand sibMC 5 "e" 1 1 3 ["d", "b", "r"] = .mk "e" 1 1 true [] := by
      have h := expand_noRecipe_leaf sibMC 5 "e" 1 1 3 ["d", "b", "r"] ⟨4, "e"⟩
        (by rw [hne']; decide) (by rw [hne']; exact hie) rfl (by rw [hne']; decide)
      rw [one_mul] at h
      exact h
    have hEc : expand sibMC 5 "e" 1 1 3 ["d", "c", "r"] = .mk "e" 1 1 true [] := by
      have h := expand_noRecipe_leaf sibMC 5 "e" 1 1 3 ["d", "c", "r"] ⟨4, "e"⟩
        (by rw [hne']; decide) (by rw [hne']; exact hie) rfl (by rw [hne']; decide)
      rw [one_mul] at h
      exact h
    have hDb : expand sibMC 5 "d" 1 1 2 ["b", "r"] =
        .mk "d" 1 1 false [.mk "e" 1 1 true []] := by
      rw [expand.eq_def]
      simp only [hnd, hid, hrd, hpd, hgd, hine, one_mul]
      rw [if_neg (by decide : ¬ ("d" : String) ∈ ["b", "r"])]
      simp only [List.isEmpty_cons, Bool.false_eq_true, if_false,
        (by decide : ¬ (5 : ℕ) ≤ 2), List.map_cons, List.map_nil, hine,
        Nat.reduceAdd, hEb]
    have hDc : expand sibMC 5 "d" 1 1 2 ["c", "r"] =
        .mk "d" 1 1 false [.mk "e" 1 1 true []] := by
      rw [expand.eq_def]
      simp only [hnd, hid, hrd, hpd, hgd, hine, one_mul]
      rw [if_neg (by decide : ¬ ("d" : String) ∈ ["c", "r"])]
      simp only [List.isEmpty_cons, Bool.false_eq_true, if_false,
        (by decide : ¬ (5 : ℕ) ≤ 2), List.map_cons, List.map_nil, hine,
        Nat.reduceAdd, hEc]
    have hB : expand sibMC 5 "b" 1 1 1 ["r"] =
        .mk "b" 1 1 false [.mk "d" 1 1 false [.mk "e" 1 1 true []]] := by
      rw [expand.eq_def]
      simp only [hnb, hib, hrb, hpb, hgb, hind, one_mul]
      rw [if_neg (by decide : ¬ ("b" : String) ∈ ["r"])]
      simp only [List.isEmpty_cons, Bool.false_eq_true, if_false,
        (by decide : ¬ (5 : ℕ) ≤ 1), List.map_cons, List.map_nil, hind,
        Nat.reduceAdd, hDb]
    have hC : expand sibMC 5 "c" 1 1 1 ["r"] =
        .mk "c" 1 1 false [.mk "d" 1 1 false [.mk "e" 1 1 true []]] := by
      rw [expand.eq_def]
      simp only [hnc, hic, hrc, hpb, hgb, hind, one_mul]
      rw [if_neg (by decide : ¬ ("c" : String) ∈ ["r"])]
      simp only [List.isEmpty_cons, Bool.false_eq_true, if_false,
        (by decide : ¬ (5 : ℕ) ≤ 1), List.map_cons, List.map_nil, hind,
        Nat.reduceAdd, hDc]
    have hR : expand sibMC 5 "r" 1 1 0 [] =
        .mk "r" 1 1 false
          [.mk "b" 1 1 false [.mk "d" 1 1 false [.mk "e" 1 1 true []]],
           .mk "c" 1 1 false [.mk "d" 1 1 false [.mk "e" 1 1 true []]]] := by
      rw [expand.eq_def]
      simp only [hnr, hir, hrr, hpr, hgr, hinb, hinc, one_mul]
      rw [if_neg (List.not_mem_nil "r")]
      simp only [List.isEmpty_cons, Bool.false_eq_true, if_false,
        (by decide : ¬ (5 : ℕ) ≤ 0), List.map_cons, List.map_nil, hinb, hinc,
        Nat.reduceAdd, hB, hC]
    simp only [buildRecipeTree, hnr, hir, hR]

/-- Witness for C7's general conjunct: with `a` already on the path, the
expansion of `a` is a raw leaf. -/
theorem buildRecipeTree_cycle_safe_witness :
    expand mcEmpty 3 "a" 1 1 1 ["a"] = .mk "a" 1 (1 * 1) true [] :=
  buildRecipeTree_cycle_safe.1 mcEmpty 3 "a" 1 1 1 ["a"] (by decide)

end CraftChain
